import Mathlib

set_option maxHeartbeats 1600000

/-!
Verification development for the ARC (Adaptive Replacement Cache) policy
engine of this repository, embedded shallowly from src/arc_cache.hpp.

State: capacity, the adaptation parameter p (C++ size_t, modelled as Nat),
the resident lists T1 and T2 (key-value pairs, most recent at the head,
mirroring std::list plus the value maps), and the ghost lists B1 and B2
(keys only). Operations that the C++ can only execute by invoking
undefined behaviour (reading the back of an empty std::list, or erasing
through an invalidated map entry) return none.

The adaptation steps of p are defined in exact integer arithmetic; the
theorems pAfterB1Hit_eq_floor and pAfterB2Hit_eq_floor prove them equal
to the truncated rational computations that the C++ writes with double
arithmetic (min(capacity, (size_t)(p + delta)) and
(p >= delta ? (size_t)(p - delta) : 0) with
delta = max(1.0, other / max(1, own))). Double rounding versus exact
rationals cannot change these truncations for list lengths below about
2 to the 21, far beyond any state reachable here.
-/

namespace ARCSpec

/-- The four-list ARC state owned by the class ARCache in src/arc_cache.hpp. -/
structure ARCache (K V : Type) where
  capacity : Nat
  p : Nat
  t1 : List (K × V)
  t2 : List (K × V)
  b1 : List K
  b2 : List K
deriving DecidableEq

/-- Keys of a resident list, in order (the std::list of keys). -/
def keysOf {K V : Type} (l : List (K × V)) : List K := l.map Prod.fst

/-- Value lookup in a resident list, mirroring the unordered value maps. -/
def lookupKey {K V : Type} [DecidableEq K] (k : K) (l : List (K × V)) : Option V :=
  (l.find? (fun e => decide (e.1 = k))).map Prod.snd

/-- Removal of the entry of a key from a resident list (erase through the
stored iterator in the C++). -/
def eraseKey {K V : Type} [DecidableEq K] (k : K) (l : List (K × V)) : List (K × V) :=
  l.eraseP (fun e => decide (e.1 = k))

/-- The eviction sub-algorithm ARCache::replace (src/arc_cache.hpp lines
31 to 67). The branch moving the tail of T1 to the front of B1 performs no
trimming of B1: that block is commented out in the source. The branch
moving the tail of T2 to the front of B2 pops the tail of B2 when B2 then
exceeds capacity. Reading the back of an empty list is undefined
behaviour in the C++ and yields none here. -/
def ARCache.replace {K V : Type} (s : ARCache K V) (in_b2 : Bool) : Option (ARCache K V) :=
  if 0 < s.t1.length ∧ (s.p < s.t1.length ∨ (in_b2 = true ∧ s.t1.length = s.p)) then
    match s.t1.getLast? with
    | some e => some { s with t1 := s.t1.dropLast, b1 := e.1 :: s.b1 }
    | none => none
  else
    match s.t2.getLast? with
    | some e =>
        some { s with t2 := s.t2.dropLast,
                      b2 := if s.capacity < (e.1 :: s.b2).length
                            then (e.1 :: s.b2).dropLast else e.1 :: s.b2 }
    | none => none

/-- Case 1 of ARCache::put: the key is resident in T1; it is promoted to
the front of T2 with the new value. -/
def ARCache.putT1Hit {K V : Type} [DecidableEq K] (s : ARCache K V) (k : K) (v : V) :
    ARCache K V :=
  { s with t1 := eraseKey k s.t1, t2 := (k, v) :: s.t2 }

/-- Case 2 of ARCache::put: the key is resident in T2; it moves to the
front of T2 with the new value. -/
def ARCache.putT2Hit {K V : Type} [DecidableEq K] (s : ARCache K V) (k : K) (v : V) :
    ARCache K V :=
  { s with t2 := (k, v) :: eraseKey k s.t2 }

/-- The adaptation step magnitude max(1, x / max(1, y)), as in the two
delta computations of ARCache::put. -/
def adaptDelta (x y : Nat) : ℚ := max 1 ((x : ℚ) / ((max 1 y : Nat) : ℚ))

/-- The new value of p on a B1 hit: the C++ computes
p = min(capacity, (size_t)(p + delta)) with delta = max(1.0, |B2| /
max(1, |B1|)); the truncated sum equals p + max 1 (b2len / max 1 b1len)
in floor division, see the bridge theorem pAfterB1Hit_eq_floor. -/
def pAfterB1Hit (cap p b1len b2len : Nat) : Nat :=
  min cap (p + max 1 (b2len / max 1 b1len))

/-- The new value of p on a B2 hit: the C++ computes
p = (p >= delta) ? (size_t)(p - delta) : 0 with delta = max(1.0, |B1| /
max(1, |B2|)); in integer arithmetic the truncated difference subtracts
the ceiling of the quotient, see the bridge theorem
pAfterB2Hit_eq_floor. -/
def pAfterB2Hit (p b1len b2len : Nat) : Nat :=
  if b1len ≤ max 1 b2len then (if 1 ≤ p then p - 1 else 0)
  else if b1len ≤ p * max 1 b2len then p - (b1len + max 1 b2len - 1) / max 1 b2len
  else 0

/-- Case 3 of ARCache::put: ghost hit in B1. The parameter p grows, one
entry is evicted through replace(false), the key leaves B1 and enters the
front of T2 with the new value. -/
def ARCache.putB1Hit {K V : Type} [DecidableEq K] (s : ARCache K V) (k : K) (v : V) :
    Option (ARCache K V) :=
  (({ s with p := pAfterB1Hit s.capacity s.p s.b1.length s.b2.length } : ARCache K V).replace
      false).map
    (fun s' => { s' with b1 := s'.b1.erase k, t2 := (k, v) :: s'.t2 })

/-- Case 4 of ARCache::put: ghost hit in B2. The parameter p shrinks and
one entry is evicted through replace(true). When the trim inside replace
has already popped the very key being looked up, the subsequent
b2.erase(b2_map[key]) in the C++ goes through a freshly value-initialized
iterator: undefined behaviour, modelled as none. Otherwise the key leaves
B2 and enters the front of T2. -/
def ARCache.putB2Hit {K V : Type} [DecidableEq K] (s : ARCache K V) (k : K) (v : V) :
    Option (ARCache K V) :=
  (({ s with p := pAfterB2Hit s.p s.b1.length s.b2.length } : ARCache K V).replace true).bind
    (fun s' =>
      if k ∈ s'.b2 then
        some { s' with b2 := s'.b2.erase k, t2 := (k, v) :: s'.t2 }
      else none)

/-- The eviction part of case 5 of ARCache::put (src/arc_cache.hpp lines
137 to 169). When |T1| + |B1| reaches capacity: if |T1| < capacity the
tail of B1 is popped (when nonempty; dropLast of the empty list is the
empty list) and replace(false) runs; otherwise the tail of T1 is popped
and discarded with no ghost recorded, undefined behaviour (none) when T1
is empty. Otherwise, when all four lists together reach capacity, the
tail of B2 is popped first exactly when they total twice the capacity,
then replace(false) runs. -/
def ARCache.putMissEvict {K V : Type} (s : ARCache K V) : Option (ARCache K V) :=
  if s.capacity ≤ s.t1.length + s.b1.length then
    if s.t1.length < s.capacity then
      ({ s with b1 := s.b1.dropLast } : ARCache K V).replace false
    else
      match s.t1.getLast? with
      | some _ => some { s with t1 := s.t1.dropLast }
      | none => none
  else if s.capacity ≤ s.t1.length + s.t2.length + s.b1.length + s.b2.length then
    ({ s with b2 := if s.t1.length + s.t2.length + s.b1.length + s.b2.length = 2 * s.capacity
                    then s.b2.dropLast else s.b2 } : ARCache K V).replace false
  else some s

/-- Case 5 of ARCache::put: the key is in none of the four lists. After
the eviction step the key enters the front of T1 with its value. -/
def ARCache.putMiss {K V : Type} (s : ARCache K V) (k : K) (v : V) : Option (ARCache K V) :=
  s.putMissEvict.map (fun s' => { s' with t1 := (k, v) :: s'.t1 })

/-- ARCache::put, dispatching over the five mutually exclusive cases in
the order of the source. -/
def ARCache.put {K V : Type} [DecidableEq K] (s : ARCache K V) (k : K) (v : V) :
    Option (ARCache K V) :=
  if k ∈ keysOf s.t1 then some (s.putT1Hit k v)
  else if k ∈ keysOf s.t2 then some (s.putT2Hit k v)
  else if k ∈ s.b1 then s.putB1Hit k v
  else if k ∈ s.b2 then s.putB2Hit k v
  else s.putMiss k v

/-- ARCache::get: on a hit in T1 or T2 the current value is read and put
is invoked with it (which promotes or refreshes the entry); on a miss the
state is unchanged and no value is produced. -/
def ARCache.get {K V : Type} [DecidableEq K] (s : ARCache K V) (k : K) :
    Option (Option V × ARCache K V) :=
  match lookupKey k s.t1 with
  | some v => (s.put k v).map (fun s' => (some v, s'))
  | none =>
    match lookupKey k s.t2 with
    | some v => (s.put k v).map (fun s' => (some v, s'))
    | none => some (none, s)

/-- ARCache::size: the number of resident entries. -/
def ARCache.size {K V : Type} (s : ARCache K V) : Nat := s.t1.length + s.t2.length

/-- ARCache::clear: all lists emptied and p reset to zero. -/
def ARCache.clear {K V : Type} (s : ARCache K V) : ARCache K V :=
  { capacity := s.capacity, p := 0, t1 := [], t2 := [], b1 := [], b2 := [] }

/-- The freshly constructed cache ARCache(capacity). -/
def ARCache.init (K V : Type) (capacity : Nat) : ARCache K V :=
  { capacity := capacity, p := 0, t1 := [], t2 := [], b1 := [], b2 := [] }

/-- One public call against the cache. -/
inductive Op (K V : Type) where
  | put (k : K) (v : V)
  | get (k : K)
  | clear

/-- Effect of one public call on the state. -/
def ARCache.step {K V : Type} [DecidableEq K] (s : ARCache K V) : Op K V → Option (ARCache K V)
  | .put k v => s.put k v
  | .get k => (s.get k).map Prod.snd
  | .clear => some s.clear

/-- Execution of a sequence of public calls; none as soon as one call
runs into undefined behaviour. -/
def ARCache.run {K V : Type} [DecidableEq K] (s : ARCache K V) :
    List (Op K V) → Option (ARCache K V)
  | [] => some s
  | op :: ops => (s.step op).bind (fun s' => ARCache.run s' ops)

/-- All keys tracked by the four lists, in order. -/
def ARCache.allKeys {K V : Type} (s : ARCache K V) : List K :=
  keysOf s.t1 ++ keysOf s.t2 ++ s.b1 ++ s.b2

/-- Size bounds observed by the spec: T1 and B1 jointly fit in the
capacity and B2 fits in the capacity. -/
def SizeBounds {K V : Type} (s : ARCache K V) : Prop :=
  s.t1.length + s.b1.length ≤ s.capacity ∧ s.b2.length ≤ s.capacity

/-- Key discipline: no key occurs twice across the four lists. -/
def KeysOk {K V : Type} (s : ARCache K V) : Prop :=
  s.allKeys.Nodup

/-- C1, counterexample: at capacity 1, put(1,10) fills T1 and leaves the
working set at capacity; the fresh-key put(2,20) then evicts the resident
entry 1, yet both ghost lists stay empty and key 1 is tracked nowhere:
the eviction bypassed the replace rule and silently discarded the entry
instead of demoting its key to a ghost list. -/
theorem claim_C1_counterexample :
    (ARCache.init Nat Nat 1).put 1 10 =
      some (⟨1, 0, [(1, 10)], [], [], []⟩ : ARCache Nat Nat)
    ∧ (⟨1, 0, [(1, 10)], [], [], []⟩ : ARCache Nat Nat).capacity ≤
        (⟨1, 0, [(1, 10)], [], [], []⟩ : ARCache Nat Nat).size
    ∧ (2 : Nat) ∉ (⟨1, 0, [(1, 10)], [], [], []⟩ : ARCache Nat Nat).allKeys
    ∧ (⟨1, 0, [(1, 10)], [], [], []⟩ : ARCache Nat Nat).put 2 20 =
        some (⟨1, 0, [(2, 20)], [], [], []⟩ : ARCache Nat Nat)
    ∧ (⟨1, 0, [(2, 20)], [], [], []⟩ : ARCache Nat Nat).b1 = []
    ∧ (⟨1, 0, [(2, 20)], [], [], []⟩ : ARCache Nat Nat).b2 = []
    ∧ (1 : Nat) ∉ (⟨1, 0, [(2, 20)], [], [], []⟩ : ARCache Nat Nat).allKeys := by
  decide

/-- C2, counterexample: at capacity 2, after put(1,10) and put(2,20) the
put(3,30) with p = 0 does not move key 1 into B1 (B1 stays empty; key 1
is forgotten), and the following put(1,11) does not place key 1 in T2: it
lands at the front of T1 with p still 0. -/
theorem claim_C2_counterexample :
    (ARCache.init Nat Nat 2).run [Op.put 1 10, Op.put 2 20, Op.put 3 30] =
      some (⟨2, 0, [(3, 30), (2, 20)], [], [], []⟩ : ARCache Nat Nat)
    ∧ (⟨2, 0, [(3, 30), (2, 20)], [], [], []⟩ : ARCache Nat Nat).b1 = []
    ∧ (⟨2, 0, [(3, 30), (2, 20)], [], [], []⟩ : ARCache Nat Nat).put 1 11 =
        some (⟨2, 0, [(1, 11), (3, 30)], [], [], []⟩ : ARCache Nat Nat)
    ∧ (1 : Nat) ∈ keysOf (⟨2, 0, [(1, 11), (3, 30)], [], [], []⟩ : ARCache Nat Nat).t1
    ∧ (1 : Nat) ∉ keysOf (⟨2, 0, [(1, 11), (3, 30)], [], [], []⟩ : ARCache Nat Nat).t2 := by
  decide

/-- C2 as amended: at capacity 2 starting empty, put(1,10) and put(2,20)
put both keys in T1; the next fresh put(3,30) with p = 0 pops the tail of
T1 (key 1) and discards it entirely, leaving B1 empty; the following
put(1,11) therefore treats key 1 as unseen, discards the tail of T1
(key 2), keeps p at 0 and inserts key 1 at the front of T1 with value 11,
never touching T2. -/
theorem claim_C2 :
    (ARCache.init Nat Nat 2).run [Op.put 1 10, Op.put 2 20] =
      some (⟨2, 0, [(2, 20), (1, 10)], [], [], []⟩ : ARCache Nat Nat)
    ∧ (⟨2, 0, [(2, 20), (1, 10)], [], [], []⟩ : ARCache Nat Nat).put 3 30 =
        some (⟨2, 0, [(3, 30), (2, 20)], [], [], []⟩ : ARCache Nat Nat)
    ∧ (⟨2, 0, [(3, 30), (2, 20)], [], [], []⟩ : ARCache Nat Nat).put 1 11 =
        some (⟨2, 0, [(1, 11), (3, 30)], [], [], []⟩ : ARCache Nat Nat) := by
  decide

/-- C5: at capacity 3 starting empty, the three puts leave keys 1, 2, 3
in T1; get(1), get(2), get(3) return the strings one, two, three and
promote all three keys into T2; the following put(4,four) evicts the tail
of T2 (key 1) into B2; then get(1) misses without changing the state and
get(4) hits with value four. -/
theorem claim_C5 :
    (ARCache.init Nat String 3).run [Op.put 1 "one", Op.put 2 "two", Op.put 3 "three"] =
      some (⟨3, 0, [(3, "three"), (2, "two"), (1, "one")], [], [], []⟩ : ARCache Nat String)
    ∧ (⟨3, 0, [(3, "three"), (2, "two"), (1, "one")], [], [], []⟩ : ARCache Nat String).get 1 =
        some (some "one",
          (⟨3, 0, [(3, "three"), (2, "two")], [(1, "one")], [], []⟩ : ARCache Nat String))
    ∧ (⟨3, 0, [(3, "three"), (2, "two")], [(1, "one")], [], []⟩ : ARCache Nat String).get 2 =
        some (some "two",
          (⟨3, 0, [(3, "three")], [(2, "two"), (1, "one")], [], []⟩ : ARCache Nat String))
    ∧ (⟨3, 0, [(3, "three")], [(2, "two"), (1, "one")], [], []⟩ : ARCache Nat String).get 3 =
        some (some "three",
          (⟨3, 0, [], [(3, "three"), (2, "two"), (1, "one")], [], []⟩ : ARCache Nat String))
    ∧ keysOf (⟨3, 0, [], [(3, "three"), (2, "two"), (1, "one")], [], []⟩ :
        ARCache Nat String).t2 = [3, 2, 1]
    ∧ (⟨3, 0, [], [(3, "three"), (2, "two"), (1, "one")], [], []⟩ :
        ARCache Nat String).put 4 "four" =
        some (⟨3, 0, [(4, "four")], [(3, "three"), (2, "two")], [], [1]⟩ : ARCache Nat String)
    ∧ (⟨3, 0, [(4, "four")], [(3, "three"), (2, "two")], [], [1]⟩ : ARCache Nat String).get 1 =
        some (none,
          (⟨3, 0, [(4, "four")], [(3, "three"), (2, "two")], [], [1]⟩ : ARCache Nat String))
    ∧ (⟨3, 0, [(4, "four")], [(3, "three"), (2, "two")], [], [1]⟩ : ARCache Nat String).get 4 =
        some (some "four",
          (⟨3, 0, [], [(4, "four"), (3, "three"), (2, "two")], [], [1]⟩ : ARCache Nat String)) := by
  decide

/-- C9, failing executions: at capacity 0 the very first fresh put reads
the back of the empty list T1 (undefined behaviour in the C++, none in
the model); at capacity 1 the sequence put 1, put 1, put 2, put 2, put 1
ends in a B2 ghost hit whose replace(true) call trims the looked-up key 1
out of B2, after which the C++ erases through a freshly inserted
value-initialized iterator (undefined behaviour). The public operations
are therefore not total. -/
theorem claim_C9_bug :
    (ARCache.init Nat Nat 0).put 1 0 = none
    ∧ (ARCache.init Nat Nat 1).run
        [Op.put 1 10, Op.put 1 11, Op.put 2 20, Op.put 2 21, Op.put 1 12] = none := by
  decide

/-- A none lookup means the key is absent from the list of keys. -/
theorem lookupKey_eq_none {K V : Type} [DecidableEq K] {k : K} {l : List (K × V)} :
    lookupKey k l = none ↔ k ∉ keysOf l := by
  simp only [lookupKey, keysOf, Option.map_eq_none', List.find?_eq_none, List.mem_map,
    decide_eq_true_eq]
  constructor
  · rintro h ⟨e, he, rfl⟩
    exact h e he rfl
  · rintro h e he rfl
    exact h ⟨e, he, rfl⟩

/-- A some lookup means the key is present in the list of keys. -/
theorem mem_keysOf_of_lookupKey {K V : Type} [DecidableEq K] {k : K} {v : V}
    {l : List (K × V)} (h : lookupKey k l = some v) : k ∈ keysOf l := by
  simp only [lookupKey, Option.map_eq_some'] at h
  obtain ⟨e, he, hv⟩ := h
  have h1 : e.1 = k := by simpa using List.find?_some he
  have h2 : e ∈ l := List.mem_of_find?_eq_some he
  exact h1 ▸ List.mem_map_of_mem Prod.fst h2

/-- Erasing a key from a resident list erases it from the key list. -/
theorem keysOf_eraseKey {K V : Type} [DecidableEq K] (k : K) (l : List (K × V)) :
    keysOf (eraseKey k l) = (keysOf l).erase k := by
  induction l with
  | nil => rfl
  | cons e l ih =>
    by_cases h : e.1 = k
    · simp [eraseKey, keysOf, List.eraseP_cons, List.erase_cons, h]
    · have hd : decide (e.1 = k) = false := by simp [h]
      simp only [eraseKey, keysOf, List.eraseP_cons, hd, cond_false, List.map_cons,
        List.erase_cons, beq_iff_eq, if_neg h]
      exact congrArg (e.1 :: ·) ih

/-- Erasure never lengthens a resident list. -/
theorem length_eraseKey_le {K V : Type} [DecidableEq K] (k : K) (l : List (K × V)) :
    (eraseKey k l).length ≤ l.length :=
  (List.eraseP_sublist l).length_le

/-- Erasing a present key shortens the resident list by one. -/
theorem length_eraseKey_of_mem {K V : Type} [DecidableEq K] {k : K} {l : List (K × V)}
    (h : k ∈ keysOf l) : (eraseKey k l).length = l.length - 1 := by
  have h1 : (keysOf (eraseKey k l)).length = ((keysOf l).erase k).length := by
    rw [keysOf_eraseKey]
  rw [List.length_erase_of_mem h] at h1
  simpa [keysOf] using h1

/-- Decomposition of a list along its last element. -/
theorem getLast?_some_decomp {α : Type} {l : List α} {e : α} (h : l.getLast? = some e) :
    l.dropLast ++ [e] = l ∧ 0 < l.length := by
  have hne : l ≠ [] := by
    intro hl
    rw [hl] at h
    cases h
  rw [List.getLast?_eq_getLast_of_ne_nil hne] at h
  injection h with h1
  subst h1
  exact ⟨List.dropLast_append_getLast hne, List.length_pos.mpr hne⟩

/-- Structured elimination of a successful replace call: either the tail
of T1 moved to the front of B1 (the eviction condition held), or the tail
of T2 moved to the front of B2 with the tail of B2 popped when B2 then
exceeds capacity. -/
theorem replace_cases {K V : Type} {s s' : ARCache K V} {f : Bool}
    (h : s.replace f = some s') :
    (∃ e, s.t1.getLast? = some e ∧
      (0 < s.t1.length ∧ (s.p < s.t1.length ∨ (f = true ∧ s.t1.length = s.p))) ∧
      s' = { s with t1 := s.t1.dropLast, b1 := e.1 :: s.b1 }) ∨
    (∃ e, s.t2.getLast? = some e ∧
      ¬(0 < s.t1.length ∧ (s.p < s.t1.length ∨ (f = true ∧ s.t1.length = s.p))) ∧
      s' = { s with t2 := s.t2.dropLast,
                    b2 := if s.capacity < (e.1 :: s.b2).length
                          then (e.1 :: s.b2).dropLast else e.1 :: s.b2 }) := by
  unfold ARCache.replace at h
  split at h
  next hc =>
    left
    cases hL : s.t1.getLast? with
    | none => rw [hL] at h; cases h
    | some e =>
      rw [hL] at h
      injection h with h1
      exact ⟨e, rfl, hc, h1.symm⟩
  next hc =>
    right
    cases hL : s.t2.getLast? with
    | none => rw [hL] at h; cases h
    | some e =>
      rw [hL] at h
      injection h with h1
      exact ⟨e, rfl, hc, h1.symm⟩

/-- replace keeps p unchanged. -/
theorem replace_p {K V : Type} {s s' : ARCache K V} {f : Bool}
    (h : s.replace f = some s') : s'.p = s.p := by
  rcases replace_cases h with ⟨e, _, _, rfl⟩ | ⟨e, _, _, rfl⟩ <;> rfl

/-- replace keeps the capacity unchanged. -/
theorem replace_capacity {K V : Type} {s s' : ARCache K V} {f : Bool}
    (h : s.replace f = some s') : s'.capacity = s.capacity := by
  rcases replace_cases h with ⟨e, _, _, rfl⟩ | ⟨e, _, _, rfl⟩ <;> rfl

/-- replace preserves the combined length of T1 and B1. -/
theorem replace_t1b1 {K V : Type} {s s' : ARCache K V} {f : Bool}
    (h : s.replace f = some s') :
    s'.t1.length + s'.b1.length = s.t1.length + s.b1.length := by
  rcases replace_cases h with ⟨e, hL, hc, rfl⟩ | ⟨e, hL, hc, rfl⟩
  · simp only [List.length_dropLast, List.length_cons]
    omega
  · rfl

/-- replace removes exactly one resident entry. -/
theorem replace_resident {K V : Type} {s s' : ARCache K V} {f : Bool}
    (h : s.replace f = some s') :
    s'.t1.length + s'.t2.length + 1 = s.t1.length + s.t2.length := by
  rcases replace_cases h with ⟨e, hL, hc, rfl⟩ | ⟨e, hL, hc, rfl⟩
  · simp only [List.length_dropLast]
    omega
  · have h2 := (getLast?_some_decomp hL).2
    simp only [List.length_dropLast]
    omega

/-- replace keeps B2 within capacity. -/
theorem replace_b2_le {K V : Type} {s s' : ARCache K V} {f : Bool}
    (h : s.replace f = some s') (hb : s.b2.length ≤ s.capacity) :
    s'.b2.length ≤ s.capacity := by
  rcases replace_cases h with ⟨e, hL, hc, rfl⟩ | ⟨e, hL, hc, rfl⟩
  · exact hb
  · simp only
    split
    · simp only [List.dropLast_cons_of_ne_nil, List.length_dropLast, List.length_cons]
      omega
    · next hgt => simp only [List.length_cons] at hgt ⊢; omega

/-- replace keeps B1 within capacity when T1 and B1 jointly fit. -/
theorem replace_b1_le {K V : Type} {s s' : ARCache K V} {f : Bool}
    (h : s.replace f = some s') (hb : s.t1.length + s.b1.length ≤ s.capacity) :
    s'.b1.length ≤ s.capacity := by
  rcases replace_cases h with ⟨e, hL, hc, rfl⟩ | ⟨e, hL, hc, rfl⟩
  · simp only [List.length_cons]
    omega
  · simp only
    omega

/-- replace never removes a key from B1. -/
theorem replace_b1_mem {K V : Type} {s s' : ARCache K V} {f : Bool} {k : K}
    (h : s.replace f = some s') (hk : k ∈ s.b1) : k ∈ s'.b1 := by
  rcases replace_cases h with ⟨e, hL, hc, rfl⟩ | ⟨e, hL, hc, rfl⟩
  · exact List.mem_cons_of_mem _ hk
  · exact hk

/-- put dispatches to case 1 when the key is resident in T1. -/
theorem put_t1hit {K V : Type} [DecidableEq K] {s : ARCache K V} {k : K} {v : V}
    (h1 : k ∈ keysOf s.t1) : s.put k v = some (s.putT1Hit k v) := by
  simp [ARCache.put, h1]

/-- put dispatches to case 2 when the key is resident in T2 only. -/
theorem put_t2hit {K V : Type} [DecidableEq K] {s : ARCache K V} {k : K} {v : V}
    (h1 : k ∉ keysOf s.t1) (h2 : k ∈ keysOf s.t2) : s.put k v = some (s.putT2Hit k v) := by
  simp [ARCache.put, h1, h2]

/-- put dispatches to case 3 when the key is a B1 ghost. -/
theorem put_b1hit {K V : Type} [DecidableEq K] {s : ARCache K V} {k : K} {v : V}
    (h1 : k ∉ keysOf s.t1) (h2 : k ∉ keysOf s.t2) (h3 : k ∈ s.b1) :
    s.put k v = s.putB1Hit k v := by
  simp [ARCache.put, h1, h2, h3]

/-- put dispatches to case 4 when the key is a B2 ghost. -/
theorem put_b2hit {K V : Type} [DecidableEq K] {s : ARCache K V} {k : K} {v : V}
    (h1 : k ∉ keysOf s.t1) (h2 : k ∉ keysOf s.t2) (h3 : k ∉ s.b1) (h4 : k ∈ s.b2) :
    s.put k v = s.putB2Hit k v := by
  simp [ARCache.put, h1, h2, h3, h4]

/-- put dispatches to case 5 when the key is tracked nowhere. -/
theorem put_miss {K V : Type} [DecidableEq K] {s : ARCache K V} {k : K} {v : V}
    (h1 : k ∉ keysOf s.t1) (h2 : k ∉ keysOf s.t2) (h3 : k ∉ s.b1) (h4 : k ∉ s.b2) :
    s.put k v = s.putMiss k v := by
  simp [ARCache.put, h1, h2, h3, h4]

/-- Elimination of a successful case 3. -/
theorem putB1Hit_elim {K V : Type} [DecidableEq K] {s s' : ARCache K V} {k : K} {v : V}
    (h : s.putB1Hit k v = some s') :
    ∃ s1, ({ s with p := pAfterB1Hit s.capacity s.p s.b1.length s.b2.length } :
        ARCache K V).replace false = some s1 ∧
      s' = { s1 with b1 := s1.b1.erase k, t2 := (k, v) :: s1.t2 } := by
  unfold ARCache.putB1Hit at h
  rcases Option.map_eq_some'.mp h with ⟨s1, h1, h2⟩
  exact ⟨s1, h1, h2.symm⟩

/-- Elimination of a successful case 4: the key survived the trim. -/
theorem putB2Hit_elim {K V : Type} [DecidableEq K] {s s' : ARCache K V} {k : K} {v : V}
    (h : s.putB2Hit k v = some s') :
    ∃ s1, ({ s with p := pAfterB2Hit s.p s.b1.length s.b2.length } :
        ARCache K V).replace true = some s1 ∧ k ∈ s1.b2 ∧
      s' = { s1 with b2 := s1.b2.erase k, t2 := (k, v) :: s1.t2 } := by
  unfold ARCache.putB2Hit at h
  rcases Option.bind_eq_some.mp h with ⟨s1, h1, h2⟩
  by_cases hk : k ∈ s1.b2
  · rw [if_pos hk] at h2
    injection h2 with h3
    exact ⟨s1, h1, hk, h3.symm⟩
  · rw [if_neg hk] at h2
    cases h2

/-- Elimination of a successful case 5. -/
theorem putMiss_elim {K V : Type} {s s' : ARCache K V} {k : K} {v : V}
    (h : s.putMiss k v = some s') :
    ∃ s1, s.putMissEvict = some s1 ∧ s' = { s1 with t1 := (k, v) :: s1.t1 } := by
  unfold ARCache.putMiss at h
  rcases Option.map_eq_some'.mp h with ⟨s1, h1, h2⟩
  exact ⟨s1, h1, h2.symm⟩

/-- Structured elimination of the eviction step of case 5. -/
theorem putMissEvict_cases {K V : Type} {s s' : ARCache K V} (h : s.putMissEvict = some s') :
    (s.capacity ≤ s.t1.length + s.b1.length ∧ s.t1.length < s.capacity ∧
      ({ s with b1 := s.b1.dropLast } : ARCache K V).replace false = some s') ∨
    (s.capacity ≤ s.t1.length + s.b1.length ∧ s.capacity ≤ s.t1.length ∧ 0 < s.t1.length ∧
      s' = { s with t1 := s.t1.dropLast }) ∨
    (s.t1.length + s.b1.length < s.capacity ∧
      s.capacity ≤ s.t1.length + s.t2.length + s.b1.length + s.b2.length ∧
      ({ s with b2 := if s.t1.length + s.t2.length + s.b1.length + s.b2.length =
                        2 * s.capacity
                      then s.b2.dropLast else s.b2 } : ARCache K V).replace false = some s') ∨
    (s.t1.length + s.b1.length < s.capacity ∧
      s.t1.length + s.t2.length + s.b1.length + s.b2.length < s.capacity ∧ s' = s) := by
  unfold ARCache.putMissEvict at h
  split at h
  next hc =>
    split at h
    next ht =>
      exact Or.inl ⟨hc, ht, h⟩
    next ht =>
      cases hL : s.t1.getLast? with
      | none => rw [hL] at h; cases h
      | some e =>
        rw [hL] at h
        injection h with h1
        exact Or.inr (Or.inl ⟨hc, by omega, (getLast?_some_decomp hL).2, h1.symm⟩)
  next hc =>
    split at h
    next ht =>
      exact Or.inr (Or.inr (Or.inl ⟨by omega, ht, h⟩))
    next ht =>
      injection h with h1
      exact Or.inr (Or.inr (Or.inr ⟨by omega, by omega, h1.symm⟩))

/-- A state property preserved by every successful step is preserved by
every successful run. -/
theorem run_preserves {K V : Type} [DecidableEq K] {P : ARCache K V → Prop}
    (hstep : ∀ s op s', P s → s.step op = some s' → P s') :
    ∀ (ops : List (Op K V)) (s s'), P s → s.run ops = some s' → P s' := by
  intro ops
  induction ops with
  | nil =>
    intro s s' hP h
    unfold ARCache.run at h
    injection h with h1
    exact h1 ▸ hP
  | cons op ops ih =>
    intro s s' hP h
    unfold ARCache.run at h
    rcases Option.bind_eq_some.mp h with ⟨s1, h1, h2⟩
    exact ih s1 s' (hstep s op s1 hP h1) h2

/-- The adaptation delta is at least one. -/
theorem one_le_adaptDelta (x y : Nat) : 1 ≤ adaptDelta x y := le_max_left _ _

/-- The new p of a B1 hit is capacity-bounded. -/
theorem pAfterB1Hit_le_cap (cap p a b : Nat) : pAfterB1Hit cap p a b ≤ cap :=
  Nat.min_le_left _ _

/-- The new p of a B2 hit never exceeds the old one. -/
theorem pAfterB2Hit_le_self (p a b : Nat) : pAfterB2Hit p a b ≤ p := by
  unfold pAfterB2Hit
  split
  · split
    · exact Nat.sub_le p 1
    · exact Nat.zero_le p
  · split
    · exact Nat.sub_le _ _
    · exact Nat.zero_le p

/-- The new p of a B1 hit never falls below the old one while the old one
respects the capacity bound. -/
theorem le_pAfterB1Hit {cap p : Nat} (a b : Nat) (hp : p ≤ cap) :
    p ≤ pAfterB1Hit cap p a b := by
  unfold pAfterB1Hit
  have h1 : 1 ≤ max 1 (b / max 1 a) := le_max_left _ _
  exact le_min hp (by omega)

/-- The eviction step of case 5 keeps the capacity unchanged. -/
theorem putMissEvict_capacity {K V : Type} {s s' : ARCache K V} (h : s.putMissEvict = some s') :
    s'.capacity = s.capacity := by
  rcases putMissEvict_cases h with ⟨_, _, hr⟩ | ⟨_, _, _, rfl⟩ | ⟨_, _, hr⟩ | ⟨_, _, rfl⟩
  · have h5 := replace_capacity hr
    exact h5
  · rfl
  · have h5 := replace_capacity hr
    exact h5
  · rfl

/-- The eviction step of case 5 keeps p unchanged. -/
theorem putMissEvict_p {K V : Type} {s s' : ARCache K V} (h : s.putMissEvict = some s') :
    s'.p = s.p := by
  rcases putMissEvict_cases h with ⟨_, _, hr⟩ | ⟨_, _, _, rfl⟩ | ⟨_, _, hr⟩ | ⟨_, _, rfl⟩
  · have h5 := replace_p hr
    exact h5
  · rfl
  · have h5 := replace_p hr
    exact h5
  · rfl

/-- put keeps the capacity unchanged. -/
theorem put_capacity {K V : Type} [DecidableEq K] {s s' : ARCache K V} {k : K} {v : V}
    (h : s.put k v = some s') : s'.capacity = s.capacity := by
  by_cases h1 : k ∈ keysOf s.t1
  · rw [put_t1hit h1] at h
    injection h with h2
    rw [← h2]
    rfl
  by_cases h2 : k ∈ keysOf s.t2
  · rw [put_t2hit h1 h2] at h
    injection h with h3
    rw [← h3]
    rfl
  by_cases h3 : k ∈ s.b1
  · rw [put_b1hit h1 h2 h3] at h
    rcases putB1Hit_elim h with ⟨s1, hr, rfl⟩
    have h5 := replace_capacity hr
    exact h5
  by_cases h4 : k ∈ s.b2
  · rw [put_b2hit h1 h2 h3 h4] at h
    rcases putB2Hit_elim h with ⟨s1, hr, _, rfl⟩
    have h5 := replace_capacity hr
    exact h5
  · rw [put_miss h1 h2 h3 h4] at h
    rcases putMiss_elim h with ⟨s1, hr, rfl⟩
    have h5 := putMissEvict_capacity hr
    exact h5

/-- On a B1 ghost hit, the new p is the adapted value. -/
theorem put_p_b1 {K V : Type} [DecidableEq K] {s s' : ARCache K V} {k : K} {v : V}
    (h1 : k ∉ keysOf s.t1) (h2 : k ∉ keysOf s.t2) (h3 : k ∈ s.b1)
    (h : s.put k v = some s') :
    s'.p = pAfterB1Hit s.capacity s.p s.b1.length s.b2.length := by
  rw [put_b1hit h1 h2 h3] at h
  rcases putB1Hit_elim h with ⟨s1, hr, rfl⟩
  have h5 := replace_p hr
  exact h5

/-- On a B2 ghost hit, the new p is the adapted value. -/
theorem put_p_b2 {K V : Type} [DecidableEq K] {s s' : ARCache K V} {k : K} {v : V}
    (h1 : k ∉ keysOf s.t1) (h2 : k ∉ keysOf s.t2) (h3 : k ∉ s.b1) (h4 : k ∈ s.b2)
    (h : s.put k v = some s') :
    s'.p = pAfterB2Hit s.p s.b1.length s.b2.length := by
  rw [put_b2hit h1 h2 h3 h4] at h
  rcases putB2Hit_elim h with ⟨s1, hr, _, rfl⟩
  have h5 := replace_p hr
  exact h5

/-- A put that is not a ghost hit keeps p unchanged. -/
theorem put_p_other {K V : Type} [DecidableEq K] {s s' : ARCache K V} {k : K} {v : V}
    (hd : k ∈ keysOf s.t1 ∨ k ∈ keysOf s.t2 ∨ (k ∉ s.b1 ∧ k ∉ s.b2))
    (h : s.put k v = some s') : s'.p = s.p := by
  by_cases h1 : k ∈ keysOf s.t1
  · rw [put_t1hit h1] at h
    injection h with h2
    rw [← h2]
    rfl
  by_cases h2 : k ∈ keysOf s.t2
  · rw [put_t2hit h1 h2] at h
    injection h with h3
    rw [← h3]
    rfl
  · have h34 : k ∉ s.b1 ∧ k ∉ s.b2 := by
      rcases hd with hk | hk | hk
      · exact absurd hk h1
      · exact absurd hk h2
      · exact hk
    rw [put_miss h1 h2 h34.1 h34.2] at h
    rcases putMiss_elim h with ⟨s1, hr, rfl⟩
    have h5 := putMissEvict_p hr
    exact h5

/-- put keeps p within the capacity bound. -/
theorem put_p_le {K V : Type} [DecidableEq K] {s s' : ARCache K V} {k : K} {v : V}
    (hp : s.p ≤ s.capacity) (h : s.put k v = some s') : s'.p ≤ s'.capacity := by
  rw [put_capacity h]
  by_cases h1 : k ∈ keysOf s.t1
  · rw [put_p_other (Or.inl h1) h]
    exact hp
  by_cases h2 : k ∈ keysOf s.t2
  · rw [put_p_other (Or.inr (Or.inl h2)) h]
    exact hp
  by_cases h3 : k ∈ s.b1
  · rw [put_p_b1 h1 h2 h3 h]
    exact pAfterB1Hit_le_cap _ _ _ _
  by_cases h4 : k ∈ s.b2
  · rw [put_p_b2 h1 h2 h3 h4 h]
    exact le_trans (pAfterB2Hit_le_self _ _ _) hp
  · rw [put_p_other (Or.inr (Or.inr ⟨h3, h4⟩)) h]
    exact hp

/-- Structured elimination of a successful get call. -/
theorem get_elim {K V : Type} [DecidableEq K] {s : ARCache K V} {k : K}
    {r : Option V × ARCache K V} (h : s.get k = some r) :
    (∃ v s', lookupKey k s.t1 = some v ∧ s.put k v = some s' ∧ r = (some v, s')) ∨
    (∃ v s', lookupKey k s.t1 = none ∧ lookupKey k s.t2 = some v ∧
      s.put k v = some s' ∧ r = (some v, s')) ∨
    (lookupKey k s.t1 = none ∧ lookupKey k s.t2 = none ∧ r = (none, s)) := by
  unfold ARCache.get at h
  cases hL1 : lookupKey k s.t1 with
  | some v =>
    rw [hL1] at h
    rcases Option.map_eq_some'.mp h with ⟨s1, hput, hr⟩
    exact Or.inl ⟨v, s1, rfl, hput, hr.symm⟩
  | none =>
    rw [hL1] at h
    cases hL2 : lookupKey k s.t2 with
    | some v =>
      rw [hL2] at h
      rcases Option.map_eq_some'.mp h with ⟨s1, hput, hr⟩
      exact Or.inr (Or.inl ⟨v, s1, rfl, rfl, hput, hr.symm⟩)
    | none =>
      rw [hL2] at h
      injection h with h1
      exact Or.inr (Or.inr ⟨rfl, rfl, h1.symm⟩)

/-- get keeps p unchanged on the reached state. -/
theorem get_p {K V : Type} [DecidableEq K] {s s' : ARCache K V} {k : K} {r : Option V}
    (h : s.get k = some (r, s')) : s'.p = s.p := by
  rcases get_elim h with ⟨v, s1, hL, hput, hr⟩ | ⟨v, s1, hL1, hL2, hput, hr⟩ | ⟨hL1, hL2, hr⟩
  · injection hr with hr1 hr2
    subst hr2
    exact put_p_other (Or.inl (mem_keysOf_of_lookupKey hL)) hput
  · injection hr with hr1 hr2
    subst hr2
    exact put_p_other (Or.inr (Or.inl (mem_keysOf_of_lookupKey hL2))) hput
  · injection hr with hr1 hr2
    subst hr2
    rfl

/-- get keeps the capacity unchanged. -/
theorem get_capacity {K V : Type} [DecidableEq K] {s s' : ARCache K V} {k : K} {r : Option V}
    (h : s.get k = some (r, s')) : s'.capacity = s.capacity := by
  rcases get_elim h with ⟨v, s1, hL, hput, hr⟩ | ⟨v, s1, hL1, hL2, hput, hr⟩ | ⟨hL1, hL2, hr⟩
  · injection hr with hr1 hr2
    subst hr2
    exact put_capacity hput
  · injection hr with hr1 hr2
    subst hr2
    exact put_capacity hput
  · injection hr with hr1 hr2
    subst hr2
    rfl

/-- Structured elimination of a successful step. -/
theorem step_elim {K V : Type} [DecidableEq K] {s s' : ARCache K V} {op : Op K V}
    (h : s.step op = some s') :
    (∃ k v, op = Op.put k v ∧ s.put k v = some s') ∨
    (∃ k r, op = Op.get k ∧ s.get k = some (r, s')) ∨
    (op = Op.clear ∧ s' = s.clear) := by
  cases op with
  | put k v =>
    exact Or.inl ⟨k, v, rfl, h⟩
  | get k =>
    unfold ARCache.step at h
    rcases Option.map_eq_some'.mp h with ⟨pr, hg, hpr⟩
    subst hpr
    refine Or.inr (Or.inl ⟨k, pr.1, rfl, ?_⟩)
    rw [Prod.mk.eta]
    exact hg
  | clear =>
    unfold ARCache.step at h
    injection h with h1
    exact Or.inr (Or.inr ⟨rfl, h1.symm⟩)

/-- C4: the replace sub-algorithm evicts the tail of T1 into the front of
B1 exactly when T1 is nonempty and either |T1| > p, or the call was
triggered from B2 and |T1| = p; in every other invocation in which the
C++ is defined (T2 nonempty) it evicts the tail of T2 into the front of
B2, trimming the tail of B2 when it then exceeds capacity. -/
theorem claim_C4 {K V : Type} (s : ARCache K V) (f : Bool) :
    ((0 < s.t1.length ∧ (s.p < s.t1.length ∨ (f = true ∧ s.t1.length = s.p))) →
      ∃ e, s.t1.getLast? = some e ∧
        s.replace f = some { s with t1 := s.t1.dropLast, b1 := e.1 :: s.b1 }) ∧
    (¬(0 < s.t1.length ∧ (s.p < s.t1.length ∨ (f = true ∧ s.t1.length = s.p))) →
      0 < s.t2.length →
      ∃ e, s.t2.getLast? = some e ∧
        s.replace f = some { s with t2 := s.t2.dropLast,
                                    b2 := if s.capacity < (e.1 :: s.b2).length
                                          then (e.1 :: s.b2).dropLast
                                          else e.1 :: s.b2 }) := by
  constructor
  · intro hc
    have hne : s.t1 ≠ [] := List.length_pos.mp hc.1
    obtain ⟨e, hL⟩ : ∃ e, s.t1.getLast? = some e := by
      cases hE : s.t1.getLast? with
      | none =>
        rw [List.getLast?_eq_getLast_of_ne_nil hne] at hE
        cases hE
      | some e => exact ⟨e, rfl⟩
    refine ⟨e, hL, ?_⟩
    unfold ARCache.replace
    rw [if_pos hc, hL]
  · intro hc ht2
    have hne : s.t2 ≠ [] := List.length_pos.mp ht2
    obtain ⟨e, hL⟩ : ∃ e, s.t2.getLast? = some e := by
      cases hE : s.t2.getLast? with
      | none =>
        rw [List.getLast?_eq_getLast_of_ne_nil hne] at hE
        cases hE
      | some e => exact ⟨e, rfl⟩
    refine ⟨e, hL, ?_⟩
    unfold ARCache.replace
    rw [if_neg hc, hL]

/-- C4 witness: both branches of the dichotomy exercised on concrete
states. -/
theorem claim_C4_witness :
    (⟨3, 0, [(1, 10), (2, 20)], [], [7], []⟩ : ARCache Nat Nat).replace false =
      some (⟨3, 0, [(1, 10)], [], [2, 7], []⟩ : ARCache Nat Nat) ∧
    (⟨3, 2, [], [(5, 50)], [], [9]⟩ : ARCache Nat Nat).replace false =
      some (⟨3, 2, [], [], [], [5, 9]⟩ : ARCache Nat Nat) := by
  constructor
  · obtain ⟨e, hL, hr⟩ :=
      (claim_C4 (⟨3, 0, [(1, 10), (2, 20)], [], [7], []⟩ : ARCache Nat Nat) false).1
        (by decide)
    have h2 : some ((2, 20) : Nat × Nat) = some e := hL
    injection h2 with h3
    subst h3
    exact hr
  · obtain ⟨e, hL, hr⟩ :=
      (claim_C4 (⟨3, 2, [], [(5, 50)], [], [9]⟩ : ARCache Nat Nat) false).2
        (by decide) (by decide)
    have h2 : some ((5, 50) : Nat × Nat) = some e := hL
    injection h2 with h3
    subst h3
    exact hr

/-- C6: starting from the freshly constructed cache, after every
successful sequence of public calls the adaptation parameter satisfies
p less than or equal to capacity (and p is a Nat, so 0 is a lower bound);
construction and clear both set p to 0. -/
theorem claim_C6 {K V : Type} [DecidableEq K] (cap : Nat) (ops : List (Op K V))
    (s' : ARCache K V) (h : (ARCache.init K V cap).run ops = some s') :
    s'.p ≤ s'.capacity ∧ (ARCache.init K V cap).p = 0 ∧ s'.clear.p = 0 := by
  refine ⟨?_, rfl, rfl⟩
  have hinv : ∀ (s : ARCache K V) (op : Op K V) (s1 : ARCache K V),
      s.p ≤ s.capacity → s.step op = some s1 → s1.p ≤ s1.capacity := by
    intro s op s1 hP hstep
    rcases step_elim hstep with ⟨k, v, rfl, hput⟩ | ⟨k, r, rfl, hget⟩ | ⟨rfl, rfl⟩
    · exact put_p_le hP hput
    · rcases get_elim hget with ⟨v, s2, hL, hput, hr⟩ | ⟨v, s2, hL1, hL2, hput, hr⟩ |
        ⟨hL1, hL2, hr⟩
      · injection hr with hr1 hr2
        subst hr2
        exact put_p_le hP hput
      · injection hr with hr1 hr2
        subst hr2
        exact put_p_le hP hput
      · injection hr with hr1 hr2
        subst hr2
        exact hP
    · exact Nat.zero_le _
  exact run_preserves hinv ops (ARCache.init K V cap) s' (Nat.zero_le _) h

/-- C6 witness: the invariant instantiated on a concrete run. -/
theorem claim_C6_witness :
    (⟨2, 0, [(2, 20), (1, 10)], [], [], []⟩ : ARCache Nat Nat).p ≤
      (⟨2, 0, [(2, 20), (1, 10)], [], [], []⟩ : ARCache Nat Nat).capacity ∧
    (ARCache.init Nat Nat 2).p = 0 ∧
    (⟨2, 0, [(2, 20), (1, 10)], [], [], []⟩ : ARCache Nat Nat).clear.p = 0 :=
  claim_C6 2 [Op.put 1 10, Op.put 2 20] _ (by decide)

/-- C7: a put finding its key in B1 never decreases p (given the p
invariant), a put finding its key in B2 never increases p, a put that is
not a ghost hit keeps p unchanged, get keeps p unchanged, and clear
resets p to 0. -/
theorem claim_C7 {K V : Type} [DecidableEq K] (s s' : ARCache K V) (k : K) (v : V) :
    ((k ∉ keysOf s.t1 ∧ k ∉ keysOf s.t2 ∧ k ∈ s.b1 ∧ s.p ≤ s.capacity ∧
        s.put k v = some s') → s.p ≤ s'.p) ∧
    ((k ∉ keysOf s.t1 ∧ k ∉ keysOf s.t2 ∧ k ∉ s.b1 ∧ k ∈ s.b2 ∧
        s.put k v = some s') → s'.p ≤ s.p) ∧
    (((k ∈ keysOf s.t1 ∨ k ∈ keysOf s.t2 ∨ (k ∉ s.b1 ∧ k ∉ s.b2)) ∧
        s.put k v = some s') → s'.p = s.p) ∧
    (∀ r, s.get k = some (r, s') → s'.p = s.p) ∧
    s.clear.p = 0 := by
  refine ⟨?_, ?_, ?_, ?_, rfl⟩
  · rintro ⟨h1, h2, h3, hp, h⟩
    rw [put_p_b1 h1 h2 h3 h]
    exact le_pAfterB1Hit _ _ hp
  · rintro ⟨h1, h2, h3, h4, h⟩
    rw [put_p_b2 h1 h2 h3 h4 h]
    exact pAfterB2Hit_le_self _ _ _
  · rintro ⟨hd, h⟩
    exact put_p_other hd h
  · intro r h
    exact get_p h

/-- C7 witness: a concrete B1 hit raising p from 0 to 1, a concrete B2
hit keeping p at 0, and a concrete resident put keeping p. -/
theorem claim_C7_witness :
    (⟨2, 0, [], [(5, 50)], [1], []⟩ : ARCache Nat Nat).p ≤
      (⟨2, 1, [], [(1, 9)], [], [5]⟩ : ARCache Nat Nat).p ∧
    (⟨2, 0, [], [(5, 50)], [], [1]⟩ : ARCache Nat Nat).p ≥
      (⟨2, 0, [], [(1, 9)], [], [5]⟩ : ARCache Nat Nat).p ∧
    (⟨2, 0, [(1, 10)], [], [], []⟩ : ARCache Nat Nat).p =
      (⟨2, 0, [], [(1, 11)], [], []⟩ : ARCache Nat Nat).p :=
  ⟨(claim_C7 (⟨2, 0, [], [(5, 50)], [1], []⟩ : ARCache Nat Nat)
      (⟨2, 1, [], [(1, 9)], [], [5]⟩ : ARCache Nat Nat) 1 9).1
      ⟨by decide, by decide, by decide, by decide, by decide⟩,
   (claim_C7 (⟨2, 0, [], [(5, 50)], [], [1]⟩ : ARCache Nat Nat)
      (⟨2, 0, [], [(1, 9)], [], [5]⟩ : ARCache Nat Nat) 1 9).2.1
      ⟨by decide, by decide, by decide, by decide, by decide⟩,
   ((claim_C7 (⟨2, 0, [(1, 10)], [], [], []⟩ : ARCache Nat Nat)
      (⟨2, 0, [], [(1, 11)], [], []⟩ : ARCache Nat Nat) 1 11).2.2.1
      ⟨Or.inl (by decide), by decide⟩)⟩

/-- C10: a get of a key resident in T1 or T2 with stored value v returns
a hit with v and leaves exactly the state that put of that key with v
would produce from the same starting state. -/
theorem claim_C10 {K V : Type} [DecidableEq K] (s : ARCache K V) (k : K) (v : V)
    (h : lookupKey k s.t1 = some v ∨
      (lookupKey k s.t1 = none ∧ lookupKey k s.t2 = some v)) :
    ∃ s', s.put k v = some s' ∧ s.get k = some (some v, s') := by
  rcases h with h1 | ⟨h1, h2⟩
  · have hm := mem_keysOf_of_lookupKey h1
    refine ⟨s.putT1Hit k v, put_t1hit hm, ?_⟩
    simp [ARCache.get, h1, put_t1hit hm]
  · have hm := mem_keysOf_of_lookupKey h2
    have hn : k ∉ keysOf s.t1 := lookupKey_eq_none.mp h1
    refine ⟨s.putT2Hit k v, put_t2hit hn hm, ?_⟩
    simp [ARCache.get, h1, h2, put_t2hit hn hm]

/-- C10 witness: a concrete T1 hit and its put-equivalent state. -/
theorem claim_C10_witness :
    ∃ s', (⟨2, 0, [(1, 7)], [], [], []⟩ : ARCache Nat Nat).put 1 7 = some s' ∧
      (⟨2, 0, [(1, 7)], [], [], []⟩ : ARCache Nat Nat).get 1 = some (some 7, s') :=
  claim_C10 (⟨2, 0, [(1, 7)], [], [], []⟩ : ARCache Nat Nat) 1 7 (Or.inl (by decide))

/-- The eviction step of case 5 leaves room for the incoming T1 entry and
keeps B2 bounded. -/
theorem putMissEvict_SB {K V : Type} {s s1 : ARCache K V}
    (hS1 : s.t1.length + s.b1.length ≤ s.capacity) (hS2 : s.b2.length ≤ s.capacity)
    (h : s.putMissEvict = some s1) :
    s1.t1.length + s1.b1.length + 1 ≤ s.capacity ∧ s1.b2.length ≤ s.capacity := by
  rcases putMissEvict_cases h with ⟨hc, ht, hr⟩ | ⟨hc, ht, hpos, rfl⟩ | ⟨hc, ht, hr⟩ |
    ⟨hc, ht, rfl⟩
  · have hb1 : 0 < s.b1.length := by omega
    have ht0 := replace_t1b1 hr
    have ht1 : s1.t1.length + s1.b1.length =
        s.t1.length + s.b1.dropLast.length := ht0
    have hb0 := replace_b2_le hr
    have hb2 : s1.b2.length ≤ s.capacity := hb0 hS2
    have hd : s.b1.dropLast.length = s.b1.length - 1 := List.length_dropLast s.b1
    exact ⟨by omega, hb2⟩
  · have hd : s.t1.dropLast.length = s.t1.length - 1 := List.length_dropLast s.t1
    constructor
    · show s.t1.dropLast.length + s.b1.length + 1 ≤ s.capacity
      omega
    · show s.b2.length ≤ s.capacity
      exact hS2
  · have ht0 := replace_t1b1 hr
    have ht1 : s1.t1.length + s1.b1.length = s.t1.length + s.b1.length := ht0
    have hb2pre : (if s.t1.length + s.t2.length + s.b1.length + s.b2.length = 2 * s.capacity
        then s.b2.dropLast else s.b2).length ≤ s.capacity := by
      split
      · have := List.length_dropLast s.b2
        omega
      · exact hS2
    have hb0 := replace_b2_le hr
    have hb2 : s1.b2.length ≤ s.capacity := hb0 hb2pre
    exact ⟨by omega, hb2⟩
  · exact ⟨by omega, by omega⟩

/-- put preserves the size bounds of T1 with B1 and of B2. -/
theorem put_SB {K V : Type} [DecidableEq K] {s s' : ARCache K V} {k : K} {v : V}
    (hS : SizeBounds s) (h : s.put k v = some s') : SizeBounds s' := by
  obtain ⟨hS1, hS2⟩ := hS
  by_cases h1 : k ∈ keysOf s.t1
  · rw [put_t1hit h1] at h
    injection h with h2
    subst h2
    have hE : (eraseKey k s.t1).length ≤ s.t1.length := length_eraseKey_le k s.t1
    constructor
    · show (eraseKey k s.t1).length + s.b1.length ≤ s.capacity
      omega
    · show s.b2.length ≤ s.capacity
      exact hS2
  by_cases h2 : k ∈ keysOf s.t2
  · rw [put_t2hit h1 h2] at h
    injection h with h3
    subst h3
    exact ⟨hS1, hS2⟩
  by_cases h3 : k ∈ s.b1
  · rw [put_b1hit h1 h2 h3] at h
    rcases putB1Hit_elim h with ⟨s1, hr, rfl⟩
    have ht0 := replace_t1b1 hr
    have ht : s1.t1.length + s1.b1.length = s.t1.length + s.b1.length := ht0
    have hb0 := replace_b2_le hr
    have hb : s1.b2.length ≤ s.capacity := hb0 hS2
    have he : (s1.b1.erase k).length ≤ s1.b1.length := (List.erase_sublist k s1.b1).length_le
    have hc0 := replace_capacity hr
    have hcap : s1.capacity = s.capacity := hc0
    constructor
    · show s1.t1.length + (s1.b1.erase k).length ≤ s1.capacity
      omega
    · show s1.b2.length ≤ s1.capacity
      omega
  by_cases h4 : k ∈ s.b2
  · rw [put_b2hit h1 h2 h3 h4] at h
    rcases putB2Hit_elim h with ⟨s1, hr, hk, rfl⟩
    have ht0 := replace_t1b1 hr
    have ht : s1.t1.length + s1.b1.length = s.t1.length + s.b1.length := ht0
    have hb0 := replace_b2_le hr
    have hb : s1.b2.length ≤ s.capacity := hb0 hS2
    have he : (s1.b2.erase k).length ≤ s1.b2.length := (List.erase_sublist k s1.b2).length_le
    have hc0 := replace_capacity hr
    have hcap : s1.capacity = s.capacity := hc0
    constructor
    · show s1.t1.length + s1.b1.length ≤ s1.capacity
      omega
    · show (s1.b2.erase k).length ≤ s1.capacity
      omega
  · rw [put_miss h1 h2 h3 h4] at h
    rcases putMiss_elim h with ⟨s1, hr, rfl⟩
    obtain ⟨hA, hB⟩ := putMissEvict_SB hS1 hS2 hr
    have hcap : s1.capacity = s.capacity := putMissEvict_capacity hr
    constructor
    · show s1.t1.length + 1 + s1.b1.length ≤ s1.capacity
      omega
    · show s1.b2.length ≤ s1.capacity
      omega

/-- C3: under the reachable size bounds, a replace call that demotes into
a ghost list leaves that ghost list within capacity (for B2 the trim pops
the tail exactly when the push overflowed; for B1 the bound |T1| + |B1|
makes an overflow impossible, so the commented-out trim is never needed);
consequently after every successful run from a fresh cache |B1|, |B2| and
|T1| + |B1| are all bounded by the capacity. -/
theorem claim_C3 {K V : Type} [DecidableEq K] :
    (∀ (s s' : ARCache K V) (f : Bool), s.t1.length + s.b1.length ≤ s.capacity →
      s.b2.length ≤ s.capacity → s.replace f = some s' →
      s'.b1.length ≤ s.capacity ∧ s'.b2.length ≤ s.capacity) ∧
    (∀ (cap : Nat) (ops : List (Op K V)) (s' : ARCache K V),
      (ARCache.init K V cap).run ops = some s' →
      s'.b1.length ≤ s'.capacity ∧ s'.b2.length ≤ s'.capacity ∧
        s'.t1.length + s'.b1.length ≤ s'.capacity) := by
  constructor
  · intro s s' f hb1 hb2 hr
    exact ⟨replace_b1_le hr hb1, replace_b2_le hr hb2⟩
  · intro cap ops s' h
    have hstep : ∀ (s : ARCache K V) (op : Op K V) (s1 : ARCache K V),
        SizeBounds s → s.step op = some s1 → SizeBounds s1 := by
      intro s op s1 hP hstep
      rcases step_elim hstep with ⟨k, v, rfl, hput⟩ | ⟨k, r, rfl, hget⟩ | ⟨rfl, rfl⟩
      · exact put_SB hP hput
      · rcases get_elim hget with ⟨v, s2, hL, hput, hr⟩ | ⟨v, s2, hL1, hL2, hput, hr⟩ |
          ⟨hL1, hL2, hr⟩
        · injection hr with hr1 hr2
          subst hr2
          exact put_SB hP hput
        · injection hr with hr1 hr2
          subst hr2
          exact put_SB hP hput
        · injection hr with hr1 hr2
          subst hr2
          exact hP
      · exact ⟨Nat.zero_le _, Nat.zero_le _⟩
    have hfin : SizeBounds s' :=
      run_preserves hstep ops (ARCache.init K V cap) s'
        ⟨Nat.zero_le _, Nat.zero_le _⟩ h
    obtain ⟨hA, hB⟩ := hfin
    exact ⟨by omega, hB, hA⟩

/-- C3 witness: the replace bound applied to a concrete demotion into B1,
and the run bounds applied to a concrete two-put history. -/
theorem claim_C3_witness :
    ((⟨2, 0, [], [], [1], []⟩ : ARCache Nat Nat).b1.length ≤ 2 ∧
      (⟨2, 0, [], [], [1], []⟩ : ARCache Nat Nat).b2.length ≤ 2) ∧
    ((⟨2, 0, [(2, 20), (1, 10)], [], [], []⟩ : ARCache Nat Nat).b1.length ≤
        (⟨2, 0, [(2, 20), (1, 10)], [], [], []⟩ : ARCache Nat Nat).capacity ∧
      (⟨2, 0, [(2, 20), (1, 10)], [], [], []⟩ : ARCache Nat Nat).b2.length ≤
        (⟨2, 0, [(2, 20), (1, 10)], [], [], []⟩ : ARCache Nat Nat).capacity ∧
      (⟨2, 0, [(2, 20), (1, 10)], [], [], []⟩ : ARCache Nat Nat).t1.length +
        (⟨2, 0, [(2, 20), (1, 10)], [], [], []⟩ : ARCache Nat Nat).b1.length ≤
        (⟨2, 0, [(2, 20), (1, 10)], [], [], []⟩ : ARCache Nat Nat).capacity) :=
  ⟨(@claim_C3 Nat Nat _).1 (⟨2, 0, [(1, 10)], [], [], []⟩ : ARCache Nat Nat)
      (⟨2, 0, [], [], [1], []⟩ : ARCache Nat Nat) false (by decide) (by decide) (by decide),
   (@claim_C3 Nat Nat _).2 2 [Op.put 1 10, Op.put 2 20]
      (⟨2, 0, [(2, 20), (1, 10)], [], [], []⟩ : ARCache Nat Nat) (by decide)⟩

/-- Count of the keys of a resident list decomposed at its last entry. -/
theorem count_keysOf_getLast {K V : Type} [DecidableEq K] {l : List (K × V)} {e : K × V}
    (h : l.getLast? = some e) (a : K) :
    (keysOf l).count a = (keysOf l.dropLast).count a + if e.1 = a then 1 else 0 := by
  obtain ⟨hdec, hpos⟩ := getLast?_some_decomp h
  conv_lhs => rw [← hdec]
  by_cases he : e.1 = a <;>
    simp [keysOf, List.map_append, List.count_append, List.count_cons, he]

/-- replace never raises the count of any key. -/
theorem replace_count {K V : Type} [DecidableEq K] {s s' : ARCache K V} {f : Bool}
    (h : s.replace f = some s') (a : K) : s'.allKeys.count a ≤ s.allKeys.count a := by
  rcases replace_cases h with ⟨e, hL, hc, rfl⟩ | ⟨e, hL, hc, rfl⟩
  · have h1 := count_keysOf_getLast hL a
    have hs1 : ({ s with t1 := s.t1.dropLast, b1 := e.1 :: s.b1 } : ARCache K V).allKeys
        = keysOf s.t1.dropLast ++ keysOf s.t2 ++ (e.1 :: s.b1) ++ s.b2 := rfl
    have hs0 : s.allKeys = keysOf s.t1 ++ keysOf s.t2 ++ s.b1 ++ s.b2 := rfl
    rw [hs1, hs0]
    simp only [List.count_append]
    by_cases he : e.1 = a
    · rw [if_pos he] at h1
      rw [he, List.count_cons_self]
      omega
    · rw [if_neg he] at h1
      rw [List.count_cons_of_ne (Ne.symm he)]
      omega
  · have h1 := count_keysOf_getLast hL a
    have hb2 : (if s.capacity < (e.1 :: s.b2).length then (e.1 :: s.b2).dropLast
        else e.1 :: s.b2).count a ≤ (e.1 :: s.b2).count a := by
      split
      · exact (List.dropLast_sublist _).count_le a
      · exact le_refl _
    have hs1 : ({ s with t2 := s.t2.dropLast,
                         b2 := if s.capacity < (e.1 :: s.b2).length
                               then (e.1 :: s.b2).dropLast
                               else e.1 :: s.b2 } : ARCache K V).allKeys
        = keysOf s.t1 ++ keysOf s.t2.dropLast ++ s.b1 ++
          (if s.capacity < (e.1 :: s.b2).length then (e.1 :: s.b2).dropLast
           else e.1 :: s.b2) := rfl
    have hs0 : s.allKeys = keysOf s.t1 ++ keysOf s.t2 ++ s.b1 ++ s.b2 := rfl
    rw [hs1, hs0]
    simp only [List.count_append]
    by_cases he : e.1 = a
    · have hcons : (e.1 :: s.b2).count a = s.b2.count a + 1 := by
        rw [he]
        exact List.count_cons_self a s.b2
      rw [if_pos he] at h1
      omega
    · have hcons : (e.1 :: s.b2).count a = s.b2.count a :=
        List.count_cons_of_ne (Ne.symm he) s.b2
      rw [if_neg he] at h1
      omega

/-- The eviction step of case 5 never raises the count of any key. -/
theorem putMissEvict_count {K V : Type} [DecidableEq K] {s s1 : ARCache K V}
    (h : s.putMissEvict = some s1) (a : K) : s1.allKeys.count a ≤ s.allKeys.count a := by
  rcases putMissEvict_cases h with ⟨hc, ht, hr⟩ | ⟨hc, ht, hpos, rfl⟩ | ⟨hc, ht, hr⟩ |
    ⟨hc, ht, rfl⟩
  · have h2 := replace_count hr a
    have hd := (List.dropLast_sublist s.b1).count_le a
    have hs1 : ({ s with b1 := s.b1.dropLast } : ARCache K V).allKeys
        = keysOf s.t1 ++ keysOf s.t2 ++ s.b1.dropLast ++ s.b2 := rfl
    have hs0 : s.allKeys = keysOf s.t1 ++ keysOf s.t2 ++ s.b1 ++ s.b2 := rfl
    rw [hs1] at h2
    rw [hs0]
    simp only [List.count_append] at h2 ⊢
    omega
  · have hd : (keysOf s.t1.dropLast).count a ≤ (keysOf s.t1).count a :=
      ((List.dropLast_sublist s.t1).map Prod.fst).count_le a
    have hs1 : ({ s with t1 := s.t1.dropLast } : ARCache K V).allKeys
        = keysOf s.t1.dropLast ++ keysOf s.t2 ++ s.b1 ++ s.b2 := rfl
    have hs0 : s.allKeys = keysOf s.t1 ++ keysOf s.t2 ++ s.b1 ++ s.b2 := rfl
    rw [hs1, hs0]
    simp only [List.count_append]
    omega
  · have h2 := replace_count hr a
    have hd : (if s.t1.length + s.t2.length + s.b1.length + s.b2.length = 2 * s.capacity
        then s.b2.dropLast else s.b2).count a ≤ s.b2.count a := by
      split
      · exact (List.dropLast_sublist _).count_le a
      · exact le_refl _
    have hs1 : ({ s with b2 := if s.t1.length + s.t2.length + s.b1.length + s.b2.length =
                                 2 * s.capacity
                               then s.b2.dropLast
                               else s.b2 } : ARCache K V).allKeys
        = keysOf s.t1 ++ keysOf s.t2 ++ s.b1 ++
          (if s.t1.length + s.t2.length + s.b1.length + s.b2.length = 2 * s.capacity
           then s.b2.dropLast else s.b2) := rfl
    have hs0 : s.allKeys = keysOf s.t1 ++ keysOf s.t2 ++ s.b1 ++ s.b2 := rfl
    rw [hs1] at h2
    rw [hs0]
    simp only [List.count_append] at h2 ⊢
    omega
  · exact le_refl _

/-- put preserves the key discipline: no key is tracked twice. -/
theorem put_KeysOk {K V : Type} [DecidableEq K] {s s' : ARCache K V} {k : K} {v : V}
    (hN : KeysOk s) (h : s.put k v = some s') : KeysOk s' := by
  unfold KeysOk at hN ⊢
  rw [List.nodup_iff_count_le_one] at hN ⊢
  intro a
  have hNa := hN a
  have hs0 : s.allKeys = keysOf s.t1 ++ keysOf s.t2 ++ s.b1 ++ s.b2 := rfl
  rw [hs0] at hNa
  simp only [List.count_append] at hNa
  by_cases h1 : k ∈ keysOf s.t1
  · rw [put_t1hit h1] at h
    injection h with h2
    subst h2
    have hall : (s.putT1Hit k v).allKeys
        = keysOf (eraseKey k s.t1) ++ (k :: keysOf s.t2) ++ s.b1 ++ s.b2 := rfl
    rw [hall, keysOf_eraseKey]
    simp only [List.count_append]
    have hk := List.count_pos_iff.mpr h1
    by_cases hka : k = a
    · subst hka
      rw [List.count_erase_self, List.count_cons_self]
      omega
    · rw [List.count_erase_of_ne (Ne.symm hka), List.count_cons_of_ne (Ne.symm hka)]
      omega
  by_cases h2 : k ∈ keysOf s.t2
  · rw [put_t2hit h1 h2] at h
    injection h with h3
    subst h3
    have hall : (s.putT2Hit k v).allKeys
        = keysOf s.t1 ++ (k :: keysOf (eraseKey k s.t2)) ++ s.b1 ++ s.b2 := rfl
    rw [hall, keysOf_eraseKey]
    simp only [List.count_append]
    have hk := List.count_pos_iff.mpr h2
    by_cases hka : k = a
    · subst hka
      rw [List.count_cons_self, List.count_erase_self]
      omega
    · rw [List.count_cons_of_ne (Ne.symm hka), List.count_erase_of_ne (Ne.symm hka)]
      omega
  by_cases h3 : k ∈ s.b1
  · rw [put_b1hit h1 h2 h3] at h
    rcases putB1Hit_elim h with ⟨s1, hr, rfl⟩
    have hkb : k ∈ s1.b1 := replace_b1_mem hr h3
    have hcnt0 := replace_count hr a
    have he0 : ({ s with p := pAfterB1Hit s.capacity s.p s.b1.length s.b2.length } :
        ARCache K V).allKeys = keysOf s.t1 ++ keysOf s.t2 ++ s.b1 ++ s.b2 := rfl
    have hs1 : s1.allKeys = keysOf s1.t1 ++ keysOf s1.t2 ++ s1.b1 ++ s1.b2 := rfl
    rw [he0, hs1] at hcnt0
    simp only [List.count_append] at hcnt0
    have hall : ({ s1 with b1 := s1.b1.erase k, t2 := (k, v) :: s1.t2 } : ARCache K V).allKeys
        = keysOf s1.t1 ++ (k :: keysOf s1.t2) ++ s1.b1.erase k ++ s1.b2 := rfl
    rw [hall]
    simp only [List.count_append]
    have hk := List.count_pos_iff.mpr hkb
    by_cases hka : k = a
    · subst hka
      rw [List.count_cons_self, List.count_erase_self]
      omega
    · rw [List.count_cons_of_ne (Ne.symm hka), List.count_erase_of_ne (Ne.symm hka)]
      omega
  by_cases h4 : k ∈ s.b2
  · rw [put_b2hit h1 h2 h3 h4] at h
    rcases putB2Hit_elim h with ⟨s1, hr, hkb, rfl⟩
    have hcnt0 := replace_count hr a
    have he0 : ({ s with p := pAfterB2Hit s.p s.b1.length s.b2.length } :
        ARCache K V).allKeys = keysOf s.t1 ++ keysOf s.t2 ++ s.b1 ++ s.b2 := rfl
    have hs1 : s1.allKeys = keysOf s1.t1 ++ keysOf s1.t2 ++ s1.b1 ++ s1.b2 := rfl
    rw [he0, hs1] at hcnt0
    simp only [List.count_append] at hcnt0
    have hall : ({ s1 with b2 := s1.b2.erase k, t2 := (k, v) :: s1.t2 } : ARCache K V).allKeys
        = keysOf s1.t1 ++ (k :: keysOf s1.t2) ++ s1.b1 ++ s1.b2.erase k := rfl
    rw [hall]
    simp only [List.count_append]
    have hk := List.count_pos_iff.mpr hkb
    by_cases hka : k = a
    · subst hka
      rw [List.count_cons_self, List.count_erase_self]
      omega
    · rw [List.count_cons_of_ne (Ne.symm hka), List.count_erase_of_ne (Ne.symm hka)]
      omega
  · rw [put_miss h1 h2 h3 h4] at h
    rcases putMiss_elim h with ⟨s1, hr, rfl⟩
    have hcnt0 := putMissEvict_count hr a
    have hcntk0 := putMissEvict_count hr k
    have hs1 : s1.allKeys = keysOf s1.t1 ++ keysOf s1.t2 ++ s1.b1 ++ s1.b2 := rfl
    rw [hs1, hs0] at hcnt0 hcntk0
    simp only [List.count_append] at hcnt0 hcntk0
    have hzero : (keysOf s.t1).count k = 0 ∧ (keysOf s.t2).count k = 0 ∧
        s.b1.count k = 0 ∧ s.b2.count k = 0 :=
      ⟨List.count_eq_zero.mpr h1, List.count_eq_zero.mpr h2,
       List.count_eq_zero.mpr h3, List.count_eq_zero.mpr h4⟩
    have hall : ({ s1 with t1 := (k, v) :: s1.t1 } : ARCache K V).allKeys
        = (k :: keysOf s1.t1) ++ keysOf s1.t2 ++ s1.b1 ++ s1.b2 := rfl
    rw [hall]
    simp only [List.count_append]
    by_cases hka : k = a
    · subst hka
      rw [List.count_cons_self]
      omega
    · rw [List.count_cons_of_ne (Ne.symm hka)]
      omega

/-- Distinct values for one key cannot coexist in a list whose keys are
free of duplicates. -/
theorem value_unique {K V : Type} {l : List (K × V)} (h : (keysOf l).Nodup) :
    ∀ (k : K) (v1 v2 : V), (k, v1) ∈ l → (k, v2) ∈ l → v1 = v2 := by
  induction l with
  | nil =>
    intro k v1 v2 h1
    cases h1
  | cons e l ih =>
    intro k v1 v2 h1 h2
    simp only [keysOf, List.map_cons, List.nodup_cons] at h
    rcases List.mem_cons.mp h1 with he1 | ht1 <;> rcases List.mem_cons.mp h2 with he2 | ht2
    · rw [← he1] at he2
      injection he2 with hx hy
      exact hy.symm
    · exfalso
      have hkin : k ∈ List.map Prod.fst l := List.mem_map_of_mem Prod.fst ht2
      have he1k : e.1 = k := by rw [← he1]
      apply h.1
      rw [he1k]
      exact hkin
    · exfalso
      have hkin : k ∈ List.map Prod.fst l := List.mem_map_of_mem Prod.fst ht1
      have he1k : e.1 = k := by rw [← he2]
      apply h.1
      rw [he1k]
      exact hkin
    · exact ih h.2 k v1 v2 ht1 ht2

/-- C8: after every successful run from a fresh cache, no key occurs in
more than one of the four lists (and no key occurs twice in any one of
them), and a key resident in T1 or T2 carries exactly one value; the
ghost lists carry keys only by construction. -/
theorem claim_C8 {K V : Type} [DecidableEq K] (cap : Nat) (ops : List (Op K V))
    (s' : ARCache K V) (h : (ARCache.init K V cap).run ops = some s') :
    KeysOk s' ∧
    (∀ (k : K) (v1 v2 : V), (k, v1) ∈ s'.t1 → (k, v2) ∈ s'.t1 → v1 = v2) ∧
    (∀ (k : K) (v1 v2 : V), (k, v1) ∈ s'.t2 → (k, v2) ∈ s'.t2 → v1 = v2) := by
  have hstep : ∀ (s : ARCache K V) (op : Op K V) (s1 : ARCache K V),
      KeysOk s → s.step op = some s1 → KeysOk s1 := by
    intro s op s1 hP hst
    rcases step_elim hst with ⟨k, v, rfl, hput⟩ | ⟨k, r, rfl, hget⟩ | ⟨rfl, rfl⟩
    · exact put_KeysOk hP hput
    · rcases get_elim hget with ⟨v, s2, hL, hput, hr⟩ | ⟨v, s2, hL1, hL2, hput, hr⟩ |
        ⟨hL1, hL2, hr⟩
      · injection hr with hr1 hr2
        subst hr2
        exact put_KeysOk hP hput
      · injection hr with hr1 hr2
        subst hr2
        exact put_KeysOk hP hput
      · injection hr with hr1 hr2
        subst hr2
        exact hP
    · exact List.nodup_nil
  have hfin : KeysOk s' :=
    run_preserves hstep ops (ARCache.init K V cap) s' List.nodup_nil h
  have h0 : ((keysOf s'.t1 ++ keysOf s'.t2) ++ s'.b1 ++ s'.b2).Nodup := hfin
  have ht1 : (keysOf s'.t1).Nodup := ((h0.of_append_left).of_append_left).of_append_left
  have ht2 : (keysOf s'.t2).Nodup := ((h0.of_append_left).of_append_left).of_append_right
  exact ⟨hfin, value_unique ht1, value_unique ht2⟩

/-- C8 witness: the discipline instantiated on a concrete run reaching a
state with entries in T1, T2 and B2. -/
theorem claim_C8_witness :
    KeysOk (⟨3, 0, [(4, 40)], [(3, 31), (2, 21)], [], [1]⟩ : ARCache Nat Nat) ∧
    (∀ (k v1 v2 : Nat),
      (k, v1) ∈ (⟨3, 0, [(4, 40)], [(3, 31), (2, 21)], [], [1]⟩ : ARCache Nat Nat).t1 →
      (k, v2) ∈ (⟨3, 0, [(4, 40)], [(3, 31), (2, 21)], [], [1]⟩ : ARCache Nat Nat).t1 →
      v1 = v2) ∧
    (∀ (k v1 v2 : Nat),
      (k, v1) ∈ (⟨3, 0, [(4, 40)], [(3, 31), (2, 21)], [], [1]⟩ : ARCache Nat Nat).t2 →
      (k, v2) ∈ (⟨3, 0, [(4, 40)], [(3, 31), (2, 21)], [], [1]⟩ : ARCache Nat Nat).t2 →
      v1 = v2) :=
  claim_C8 3 [Op.put 1 10, Op.put 2 20, Op.put 3 30, Op.get 1, Op.get 2, Op.get 3,
    Op.put 2 21, Op.put 3 31, Op.put 4 40]
    (⟨3, 0, [(4, 40)], [(3, 31), (2, 21)], [], [1]⟩ : ARCache Nat Nat) (by decide)

/-- The last element of a list is one of its members. -/
theorem mem_of_getLast?_eq_some {α : Type} {l : List α} {e : α}
    (h : l.getLast? = some e) : e ∈ l := by
  obtain ⟨hdec, hpos⟩ := getLast?_some_decomp h
  rw [← hdec]
  exact List.mem_append_right _ (List.mem_singleton_self e)

/-- The head of a freshly pushed ghost list survives the tail trim as
long as the capacity is positive. -/
theorem head?_trim {K : Type} {cap : Nat} (hcap : 0 < cap) (x : K) (l : List K) :
    (if cap < (x :: l).length then (x :: l).dropLast else x :: l).head? = some x := by
  split
  · next hlt =>
    cases l with
    | nil =>
      simp only [List.length_cons, List.length_nil] at hlt
      omega
    | cons y ys =>
      rfl
  · rfl

/-- C1 as amended: a put of a key tracked nowhere, while the resident
working set is at or over capacity (under the reachable size bounds),
removes exactly one resident entry and inserts the key at the front of
T1; when |T1| < capacity the removed entry is demoted through the
replace rule and its key becomes the head of B1 or B2, but when
|T1| has reached capacity the tail of T1 is popped and silently
discarded, both ghost lists staying untouched. -/
theorem claim_C1 {K V : Type} [DecidableEq K] (s s' : ARCache K V) (k : K) (v : V)
    (hS : SizeBounds s)
    (h1 : k ∉ keysOf s.t1) (h2 : k ∉ keysOf s.t2) (h3 : k ∉ s.b1) (h4 : k ∉ s.b2)
    (hfull : s.capacity ≤ s.size) (h : s.put k v = some s') :
    s'.size = s.size ∧ s'.t1.head? = some (k, v) ∧
    ((s.capacity ≤ s.t1.length ∧ s'.b1 = s.b1 ∧ s'.b2 = s.b2 ∧
        s'.t1 = (k, v) :: s.t1.dropLast) ∨
     (s.t1.length < s.capacity ∧ ∃ kd, (kd ∈ keysOf s.t1 ∨ kd ∈ keysOf s.t2) ∧
        (s'.b1.head? = some kd ∨ s'.b2.head? = some kd))) := by
  obtain ⟨hS1, hS2⟩ := hS
  have hsz : s.size = s.t1.length + s.t2.length := rfl
  rw [put_miss h1 h2 h3 h4] at h
  rcases putMiss_elim h with ⟨s1, hr, rfl⟩
  rcases putMissEvict_cases hr with ⟨hc, ht, hrep⟩ | ⟨hc, ht, hpos, rfl⟩ | ⟨hc, ht, hrep⟩ |
    ⟨hc, ht, rfl⟩
  · have hres0 := replace_resident hrep
    have hres : s1.t1.length + s1.t2.length + 1 = s.t1.length + s.t2.length := hres0
    refine ⟨?_, rfl, Or.inr ⟨ht, ?_⟩⟩
    · show s1.t1.length + 1 + s1.t2.length = s.size
      omega
    · rcases replace_cases hrep with ⟨e, hL, hcc, hs1eq⟩ | ⟨e, hL, hcc, hs1eq⟩
      · refine ⟨e.1, Or.inl ?_, Or.inl ?_⟩
        · have hm : e ∈ s.t1 := mem_of_getLast?_eq_some hL
          exact List.mem_map_of_mem Prod.fst hm
        · subst hs1eq
          rfl
      · refine ⟨e.1, Or.inr ?_, Or.inr ?_⟩
        · have hm : e ∈ s.t2 := mem_of_getLast?_eq_some hL
          exact List.mem_map_of_mem Prod.fst hm
        · subst hs1eq
          have hcap : 0 < s.capacity := by omega
          exact head?_trim hcap e.1 s.b2
  · refine ⟨?_, rfl, Or.inl ⟨ht, rfl, rfl, rfl⟩⟩
    show s.t1.dropLast.length + 1 + s.t2.length = s.size
    have hd : s.t1.dropLast.length = s.t1.length - 1 := List.length_dropLast s.t1
    omega
  · have hres0 := replace_resident hrep
    have hres : s1.t1.length + s1.t2.length + 1 = s.t1.length + s.t2.length := hres0
    refine ⟨?_, rfl, Or.inr ⟨by omega, ?_⟩⟩
    · show s1.t1.length + 1 + s1.t2.length = s.size
      omega
    · rcases replace_cases hrep with ⟨e, hL, hcc, hs1eq⟩ | ⟨e, hL, hcc, hs1eq⟩
      · refine ⟨e.1, Or.inl ?_, Or.inl ?_⟩
        · have hm : e ∈ s.t1 := mem_of_getLast?_eq_some hL
          exact List.mem_map_of_mem Prod.fst hm
        · subst hs1eq
          rfl
      · refine ⟨e.1, Or.inr ?_, Or.inr ?_⟩
        · have hm : e ∈ s.t2 := mem_of_getLast?_eq_some hL
          exact List.mem_map_of_mem Prod.fst hm
        · subst hs1eq
          have hcap : 0 < s.capacity := by omega
          exact head?_trim hcap e.1
            (if s.t1.length + s.t2.length + s.b1.length + s.b2.length = 2 * s.capacity
             then s.b2.dropLast else s.b2)
  · exfalso
    rw [hsz] at hfull
    omega

/-- C1 witness: the amended behaviour on a concrete full cache where the
evicted entry is demoted into B1. -/
theorem claim_C1_witness :
    (⟨2, 0, [(9, 99)], [(5, 50)], [1], []⟩ : ARCache Nat Nat).size =
      (⟨2, 0, [(1, 10)], [(5, 50)], [], []⟩ : ARCache Nat Nat).size ∧
    (⟨2, 0, [(9, 99)], [(5, 50)], [1], []⟩ : ARCache Nat Nat).t1.head? = some (9, 99) ∧
    (((⟨2, 0, [(1, 10)], [(5, 50)], [], []⟩ : ARCache Nat Nat).capacity ≤
        (⟨2, 0, [(1, 10)], [(5, 50)], [], []⟩ : ARCache Nat Nat).t1.length ∧
      (⟨2, 0, [(9, 99)], [(5, 50)], [1], []⟩ : ARCache Nat Nat).b1 =
        (⟨2, 0, [(1, 10)], [(5, 50)], [], []⟩ : ARCache Nat Nat).b1 ∧
      (⟨2, 0, [(9, 99)], [(5, 50)], [1], []⟩ : ARCache Nat Nat).b2 =
        (⟨2, 0, [(1, 10)], [(5, 50)], [], []⟩ : ARCache Nat Nat).b2 ∧
      (⟨2, 0, [(9, 99)], [(5, 50)], [1], []⟩ : ARCache Nat Nat).t1 =
        (9, 99) :: (⟨2, 0, [(1, 10)], [(5, 50)], [], []⟩ : ARCache Nat Nat).t1.dropLast) ∨
     ((⟨2, 0, [(1, 10)], [(5, 50)], [], []⟩ : ARCache Nat Nat).t1.length <
        (⟨2, 0, [(1, 10)], [(5, 50)], [], []⟩ : ARCache Nat Nat).capacity ∧
      ∃ kd, (kd ∈ keysOf (⟨2, 0, [(1, 10)], [(5, 50)], [], []⟩ : ARCache Nat Nat).t1 ∨
             kd ∈ keysOf (⟨2, 0, [(1, 10)], [(5, 50)], [], []⟩ : ARCache Nat Nat).t2) ∧
        ((⟨2, 0, [(9, 99)], [(5, 50)], [1], []⟩ : ARCache Nat Nat).b1.head? = some kd ∨
         (⟨2, 0, [(9, 99)], [(5, 50)], [1], []⟩ : ARCache Nat Nat).b2.head? = some kd))) :=
  claim_C1 (⟨2, 0, [(1, 10)], [(5, 50)], [], []⟩ : ARCache Nat Nat)
    (⟨2, 0, [(9, 99)], [(5, 50)], [1], []⟩ : ARCache Nat Nat) 9 99
    ⟨by decide, by decide⟩ (by decide) (by decide) (by decide) (by decide) (by decide)
    (by decide)

/-- Division bounds: the floor quotient times the divisor brackets the
dividend. -/
theorem div_bounds (b y : Nat) (hy : 0 < y) :
    y * (b / y) ≤ b ∧ b < y * (b / y) + y := by
  have hdm := Nat.div_add_mod b y
  have hmod : b % y < y := Nat.mod_lt b hy
  omega

/-- Bounds characterizing (a + y - 1) / y as the ceiling of a / y. -/
theorem ceilDiv_bounds (a y : Nat) (hy : 0 < y) :
    a ≤ y * ((a + y - 1) / y) ∧ y * ((a + y - 1) / y) < a + y := by
  have hdm := Nat.div_add_mod (a + y - 1) y
  have hmod : (a + y - 1) % y < y := Nat.mod_lt _ hy
  omega

/-- The truncated sum p + max(1, b / y) over the rationals equals its
integer-division counterpart. -/
theorem add_delta_floor (p b y : Nat) (hy : 0 < y) :
    Int.toNat ⌊(p : ℚ) + max 1 ((b : ℚ) / (y : ℚ))⌋ = p + max 1 (b / y) := by
  have hyQ : (0 : ℚ) < (y : ℚ) := by exact_mod_cast hy
  by_cases hb : b ≤ y
  · have h1 : (b : ℚ) / (y : ℚ) ≤ 1 := by
      rw [div_le_one hyQ]
      exact_mod_cast hb
    rw [max_eq_left h1]
    have h2a : b / y ≤ y / y := Nat.div_le_div_right hb
    rw [Nat.div_self hy] at h2a
    rw [max_eq_left h2a]
    have h3 : (p : ℚ) + 1 = ((p + 1 : ℕ) : ℚ) := by push_cast; ring
    rw [h3, Int.floor_natCast, Int.toNat_natCast]
  · push_neg at hb
    have h1 : (1 : ℚ) ≤ (b : ℚ) / (y : ℚ) := by
      rw [le_div_iff₀ hyQ, one_mul]
      exact_mod_cast le_of_lt hb
    rw [max_eq_right h1]
    have h2 : 1 ≤ b / y := (Nat.one_le_div_iff hy).mpr (le_of_lt hb)
    rw [max_eq_right h2]
    obtain ⟨hb1, hb2⟩ := div_bounds b y hy
    have hfl : ⌊(p : ℚ) + (b : ℚ) / (y : ℚ)⌋ = ((p + b / y : ℕ) : ℤ) := by
      rw [Int.floor_eq_iff]
      constructor
      · have hq : ((b / y : ℕ) : ℚ) ≤ (b : ℚ) / (y : ℚ) := by
          rw [le_div_iff₀ hyQ]
          have h5 : b / y * y ≤ b := by
            rw [Nat.mul_comm]
            exact hb1
          exact_mod_cast h5
        rw [Int.cast_natCast]
        push_cast
        linarith
      · have hq : (b : ℚ) / (y : ℚ) < ((b / y : ℕ) : ℚ) + 1 := by
          rw [div_lt_iff₀ hyQ]
          have h5 : b < (b / y + 1) * y := by
            have h6 : (b / y + 1) * y = y * (b / y) + y := by ring
            omega
          exact_mod_cast h5
        rw [Int.cast_natCast]
        push_cast
        linarith
    rw [hfl, Int.toNat_natCast]

/-- The truncated difference of p and max(1, a / y) over the rationals
equals its integer counterpart: subtract 1, or the ceiling of the
quotient, or clamp at 0. -/
theorem sub_delta_floor (p a y : Nat) (hy : 0 < y) :
    (if max 1 ((a : ℚ) / (y : ℚ)) ≤ (p : ℚ)
     then Int.toNat ⌊(p : ℚ) - max 1 ((a : ℚ) / (y : ℚ))⌋ else 0)
    = (if a ≤ y then (if 1 ≤ p then p - 1 else 0)
       else if a ≤ p * y then p - (a + y - 1) / y else 0) := by
  have hyQ : (0 : ℚ) < (y : ℚ) := by exact_mod_cast hy
  by_cases ha : a ≤ y
  · have h1 : (a : ℚ) / (y : ℚ) ≤ 1 := by
      rw [div_le_one hyQ]
      exact_mod_cast ha
    rw [max_eq_left h1, if_pos ha]
    by_cases hp : 1 ≤ p
    · rw [if_pos (by exact_mod_cast hp : (1 : ℚ) ≤ (p : ℚ)), if_pos hp]
      have h3 : (p : ℚ) - 1 = ((p - 1 : ℕ) : ℚ) := by
        push_cast [Nat.cast_sub hp]
        ring
      rw [h3, Int.floor_natCast, Int.toNat_natCast]
    · rw [if_neg (by exact_mod_cast hp : ¬ (1 : ℚ) ≤ (p : ℚ)), if_neg hp]
  · push_neg at ha
    have h1 : (1 : ℚ) ≤ (a : ℚ) / (y : ℚ) := by
      rw [le_div_iff₀ hyQ, one_mul]
      exact_mod_cast le_of_lt ha
    rw [max_eq_right h1, if_neg (not_le.mpr ha)]
    have hcond : ((a : ℚ) / (y : ℚ) ≤ (p : ℚ)) ↔ a ≤ p * y := by
      rw [div_le_iff₀ hyQ]
      exact_mod_cast Iff.rfl
    by_cases hc : a ≤ p * y
    · rw [if_pos (hcond.mpr hc), if_pos hc]
      obtain ⟨hD1, hD2⟩ := ceilDiv_bounds a y hy
      have hDp : (a + y - 1) / y ≤ p := by
        have hlt : y * ((a + y - 1) / y) < y * (p + 1) := by
          have h6 : y * (p + 1) = p * y + y := by ring
          omega
        have h7 := Nat.lt_of_mul_lt_mul_left hlt
        omega
      have hfl : ⌊(p : ℚ) - (a : ℚ) / (y : ℚ)⌋ = ((p - (a + y - 1) / y : ℕ) : ℤ) := by
        rw [Int.floor_eq_iff]
        constructor
        · have hq : (a : ℚ) / (y : ℚ) ≤ (((a + y - 1) / y : ℕ) : ℚ) := by
            rw [div_le_iff₀ hyQ]
            have h5 : a ≤ (a + y - 1) / y * y := by
              rw [Nat.mul_comm]
              exact hD1
            exact_mod_cast h5
          rw [Int.cast_natCast]
          push_cast [Nat.cast_sub hDp]
          linarith
        · have hq : (((a + y - 1) / y : ℕ) : ℚ) < (a : ℚ) / (y : ℚ) + 1 := by
            have h8 : (a : ℚ) / (y : ℚ) + 1 = ((a : ℚ) + (y : ℚ)) / (y : ℚ) := by
              field_simp
            rw [h8, lt_div_iff₀ hyQ]
            have h5 : (a + y - 1) / y * y < a + y := by
              rw [Nat.mul_comm]
              exact hD2
            exact_mod_cast h5
          rw [Int.cast_natCast]
          push_cast [Nat.cast_sub hDp]
          linarith
      rw [hfl, Int.toNat_natCast]
    · rw [if_neg (fun hx => hc (hcond.mp hx)), if_neg hc]

/-- Bridge: the integer definition of the B1-hit update equals the C++
computation min(capacity, trunc(p + max(1, |B2| / max(1, |B1|)))) read
over the rationals. -/
theorem pAfterB1Hit_eq_floor (cap p a b : Nat) :
    pAfterB1Hit cap p a b = min cap (Int.toNat ⌊(p : ℚ) + adaptDelta b a⌋) := by
  unfold pAfterB1Hit adaptDelta
  rw [add_delta_floor p b (max 1 a)
    (lt_of_lt_of_le Nat.one_pos (le_max_left 1 a))]

/-- Bridge: the integer definition of the B2-hit update equals the C++
computation (p >= delta ? trunc(p - delta) : 0) with
delta = max(1, |B1| / max(1, |B2|)) read over the rationals. -/
theorem pAfterB2Hit_eq_floor (p a b : Nat) :
    pAfterB2Hit p a b =
      if adaptDelta a b ≤ (p : ℚ) then Int.toNat ⌊(p : ℚ) - adaptDelta a b⌋ else 0 := by
  unfold pAfterB2Hit adaptDelta
  rw [sub_delta_floor p a (max 1 b)
    (lt_of_lt_of_le Nat.one_pos (le_max_left 1 b))]

end ARCSpec
